import Mathlib

/-
Verification of the message-format data model in `src/src/data.rs`.

The Rust structures are shallowly embedded: `HashMap<String, String>` is
modelled as its list of entries in iteration order (the HashMap invariant
that keys are distinct appears as the `KeysNodup` side condition), `Option`
stays `Option`, and each `impl` block of interest becomes a Lean function
translated clause by clause. Fallible operations that the design document
specifies but that `data.rs` does not implement (group insertion/resolution,
pattern rendering, TextUnit construction) are modelled from the design
document and are marked as such in their doc comments.
-/

/-- Rust `enum PlaceholderType` (data.rs:11-18). -/
inductive PlaceholderType where
  | UNKNOWN
  | GENDER
  | PLURAL
  | OTHER (tag : String)
deriving DecidableEq

/-- Rust `struct Placeholder` (data.rs:39-65). -/
structure Placeholder where
  id : String
  ph_type : PlaceholderType
  default_text_val : Option String
deriving DecidableEq

/-- Rust `impl fmt::Display for Placeholder` (data.rs:67-71):
`format!("{{{}}}", self.id)`, i.e. the id wrapped in literal braces. -/
def Placeholder.display (p : Placeholder) : String :=
  "\x7b" ++ p.id ++ "\x7d"

/-- Rust `struct PHValsMap { map: HashMap<String, String> }` (data.rs:76-79).
The HashMap is modelled as its entry list in iteration order. -/
structure PHValsMap where
  map : List (String × String)
deriving DecidableEq

/-- The `HashMap` invariant: all stored keys are distinct. -/
abbrev KeysNodup (entries : List (String × String)) : Prop :=
  (entries.map Prod.fst).Nodup

/-- Rust `HashMap::get`: the value stored under the queried key, if any. -/
def hmGet : List (String × String) → String → Option String
  | [], _ => none
  | (k, v) :: rest, q => if k = q then some v else hmGet rest q

/-- Rust `impl PartialEq for HashMap`: the lengths agree and every entry of
`a` is mapped to the same value by `b`. -/
def hmEq (a b : List (String × String)) : Bool :=
  a.length == b.length && a.all fun kv => hmGet b kv.1 == some kv.2

/-- Rust `impl PartialEq for PHValsMap` (data.rs:94-98): delegates to the
`HashMap` equality of the `map` fields. -/
def PHValsMap.eq (a b : PHValsMap) : Bool :=
  hmEq a.map b.map

/-- A Rust `Hasher`'s state, modelled as the sequence of strings written to
it so far. -/
abbrev HasherState := List String

/-- Rust `DefaultHasher::new()`: a hasher with nothing written yet. -/
def defaultHasherNew : HasherState := []

/-- Rust `String::hash`: writes the string into the hasher state. -/
def stringHashWrite (h : HasherState) (s : String) : HasherState :=
  h ++ [s]

/-- Rust `Hasher::finish()`: the digest of the data written so far. The
SipHash digest function lives in Rust's standard library, outside this
repository; since nothing in the repository ever consumes the digest (see
`PHValsMap.hash`), it is modelled as the write log itself. -/
def hasherFinish (h : HasherState) : HasherState := h

/-- Rust `impl Hash for PHValsMap` (data.rs:81-92): builds a fresh local
`DefaultHasher`, writes every (key, val) pair into that local hasher in
iteration order, computes `hasher.finish()` and discards the result. The
caller-supplied `state` is never written to and is returned unchanged. -/
def PHValsMap.hash (m : PHValsMap) (state : HasherState) : HasherState :=
  let hasher := defaultHasherNew
  let hasher := m.map.foldl
    (fun h kv => stringHashWrite (stringHashWrite h kv.1) kv.2) hasher
  let _ := hasherFinish hasher
  state

/-- Rust `struct TextPart` (data.rs:114-116). -/
structure TextPart where
  text : String
deriving DecidableEq

/-- Rust `impl fmt::Display for TextPart` (data.rs:118-122): the literal
text, verbatim. -/
def TextPart.display (t : TextPart) : String := t.text

/-- Rust `enum PatternPart` (data.rs:124-127). -/
inductive PatternPart where
  | TEXTPART (t : TextPart)
  | PLACEHOLDER (p : Placeholder)
deriving DecidableEq

/-- Rust `impl fmt::Display for PatternPart` (data.rs:129-141): delegates to
the displayed form of the wrapped part. -/
def PatternPart.display : PatternPart → String
  | .TEXTPART t => t.display
  | .PLACEHOLDER p => p.display

/-- Rust `struct MessagePattern` (data.rs:143-145). -/
structure MessagePattern where
  parts : List PatternPart
deriving DecidableEq

/-- Rust `impl fmt::Display for MessagePattern` (data.rs:147-153): the parts
are displayed in order, joined with the empty separator, and the result is
wrapped as `format!("[{}]", pattern_str)`. -/
def MessagePattern.display (mp : MessagePattern) : String :=
  "[" ++ String.join (mp.parts.map PatternPart.display) ++ "]"

/-- Rust `struct SingleMessage` (data.rs:155-162). -/
structure SingleMessage where
  id : String
  locale : String
  pattern : MessagePattern
  ph_vals : PHValsMap
deriving DecidableEq

/-- Rust `struct MessageGroup` (data.rs:170-173). The variants map
`HashMap<PHValsMap, SingleMessage>` is modelled as its entry list. -/
structure MessageGroup where
  id : String
  messages : List (PHValsMap × SingleMessage)
deriving DecidableEq

/-- Rust `enum MessageType` (data.rs:196-199). -/
inductive MessageType where
  | SINGLE (m : SingleMessage)
  | GROUP (g : MessageGroup)
deriving DecidableEq

/-- Rust `struct TextUnit` (data.rs:201-204). -/
structure TextUnit where
  src : MessageType
  tgt : MessageType
deriving DecidableEq

/-- Lookup in the variants map `HashMap<PHValsMap, SingleMessage>`: the entry
whose stored key equals the query under `PHValsMap.eq`. (The HashMap settles
bucket collisions by key equality; with the repository's `Hash` impl every
key falls into one bucket, so lookup is exactly this equality scan.) -/
def groupGet : List (PHValsMap × SingleMessage) → PHValsMap → Option SingleMessage
  | [], _ => none
  | (k, m) :: rest, q => if PHValsMap.eq k q = true then some m else groupGet rest q

/-- Modelled from the spec: the error kinds of section 7. `data.rs` defines
no error type; these are the four failure modes the design document names. -/
inductive MFError where
  | DuplicateVariant
  | NoVariantFound
  | MissingValue (id : String)
  | ShapeMismatch
deriving DecidableEq

/-- Modelled from the spec: `insert(group, message)` of section 4.3.
`data.rs` declares `MessageGroup` but implements no insertion; the design
document requires the message to be added under its `ph_vals` key and the
call to fail with `DuplicateVariant` when an equal key is already present,
never silently overwriting. -/
def MessageGroup.insertMsg (g : MessageGroup) (m : SingleMessage) :
    Except MFError MessageGroup :=
  match groupGet g.messages m.ph_vals with
  | some _ => .error .DuplicateVariant
  | none => .ok { g with messages := g.messages ++ [(m.ph_vals, m)] }

/-- Modelled from the spec: `resolve(group, query)` of section 4.3 with no
fallback policy configured — exact-match lookup of the query against the
stored keys, failing with `NoVariantFound` when no key equals the query. -/
def MessageGroup.resolveExact (g : MessageGroup) (q : PHValsMap) :
    Except MFError SingleMessage :=
  match groupGet g.messages q with
  | some m => .ok m
  | none => .error .NoVariantFound

/-- Modelled from the spec: the fallback candidate chain of sections 4.3 and
9. The first entry of the query is treated as the least-specific selector;
for each selector the catch-all value "OTHER" is tried just before the
selector is dropped entirely, and the empty SelectorSet is the last resort. -/
def fallbackChain : List (String × String) → List (List (String × String))
  | [] => [[]]
  | (k, v) :: rest => ((k, v) :: rest) :: ((k, "OTHER") :: rest) :: fallbackChain rest

/-- The first candidate of the chain that has a registered variant. -/
def resolveChain (msgs : List (PHValsMap × SingleMessage)) :
    List (List (String × String)) → Option SingleMessage
  | [] => none
  | c :: rest =>
    match groupGet msgs ⟨c⟩ with
    | some m => some m
    | none => resolveChain msgs rest

/-- Modelled from the spec: `resolve(group, query)` of section 4.3 with the
fallback policy enabled — the candidate queries of `fallbackChain` are tried
in order and the first registered variant is returned, failing with
`NoVariantFound` when even the empty SelectorSet has no variant. -/
def MessageGroup.resolveFallback (g : MessageGroup) (q : PHValsMap) :
    Except MFError SingleMessage :=
  match resolveChain g.messages (fallbackChain q.map) with
  | some m => .ok m
  | none => .error .NoVariantFound

/-- Modelled from the spec: `render(pattern, interpolation_values)` of
section 4.2. Each part in order: a TextPart contributes its literal text; a
Placeholder contributes the interpolation value under its id if present,
else its `default_text_val` if present, else the rendering fails with
`MissingValue(id)`. -/
def renderParts (vals : List (String × String)) :
    List PatternPart → Except MFError String
  | [] => .ok ""
  | .TEXTPART t :: rest => (renderParts vals rest).map fun s => t.text ++ s
  | .PLACEHOLDER p :: rest =>
    match hmGet vals p.id with
    | some v => (renderParts vals rest).map fun s => v ++ s
    | none =>
      match p.default_text_val with
      | some d => (renderParts vals rest).map fun s => d ++ s
      | none => .error (.MissingValue p.id)

/-- Modelled from the spec: rendering a whole pattern (section 4.2). -/
def MessagePattern.render (mp : MessagePattern) (vals : List (String × String)) :
    Except MFError String :=
  renderParts vals mp.parts

/-- Whether a `MessageType` is the `SINGLE` shape. -/
def MessageType.isSingle : MessageType → Bool
  | .SINGLE _ => true
  | .GROUP _ => false

/-- Modelled from the spec: TextUnit construction of section 4.4. `data.rs`
declares the `TextUnit` struct with no constructor; the design document
requires both sides to be the same shape, failing with `ShapeMismatch`
otherwise. -/
def TextUnit.construct (src tgt : MessageType) : Except MFError TextUnit :=
  match src, tgt with
  | .SINGLE _, .SINGLE _ => .ok ⟨src, tgt⟩
  | .GROUP _, .GROUP _ => .ok ⟨src, tgt⟩
  | _, _ => .error .ShapeMismatch

/-! Helper lemmas about the embedded `HashMap` operations. -/

theorem hmGet_mem {m : List (String × String)} {q v : String}
    (h : hmGet m q = some v) : (q, v) ∈ m := by
  induction m with
  | nil => exact absurd h (by simp [hmGet])
  | cons kv rest ih =>
    obtain ⟨k, w⟩ := kv
    by_cases hk : k = q
    · subst hk
      simp only [hmGet, if_pos rfl] at h
      injection h with hw
      subst hw
      exact List.mem_cons_self _ _
    · simp only [hmGet, if_neg hk] at h
      exact List.mem_cons_of_mem _ (ih h)

theorem mem_hmGet {m : List (String × String)} {k v : String}
    (hn : KeysNodup m) (hmem : (k, v) ∈ m) : hmGet m k = some v := by
  induction m with
  | nil => cases hmem
  | cons kv rest ih =>
    obtain ⟨k1, v1⟩ := kv
    have hn' : (k1 :: rest.map Prod.fst).Nodup := hn
    rw [List.mem_cons] at hmem
    rcases hmem with heq | hmem
    · obtain ⟨rfl, rfl⟩ : k = k1 ∧ v = v1 := by simpa using heq
      simp [hmGet]
    · have hk : k1 ≠ k := by
        intro hkk
        subst hkk
        exact (List.nodup_cons.mp hn').1 (List.mem_map.mpr ⟨(k1, v), hmem, rfl⟩)
      simp only [hmGet, if_neg hk]
      exact ih (List.nodup_cons.mp hn').2 hmem

theorem hmGet_isSome_iff {m : List (String × String)} {q : String} :
    (hmGet m q).isSome = true ↔ q ∈ m.map Prod.fst := by
  induction m with
  | nil => simp [hmGet]
  | cons kv rest ih =>
    obtain ⟨k, v⟩ := kv
    by_cases hk : k = q
    · subst hk
      simp [hmGet]
    · have hqk : q ≠ k := fun hqk => hk hqk.symm
      simp [hmGet, hk, hqk, ih]

theorem pointwise_length_eq {a b : List (String × String)}
    (ha : KeysNodup a) (hb : KeysNodup b)
    (h : ∀ k, hmGet a k = hmGet b k) : a.length = b.length := by
  have hf : (a.map Prod.fst).toFinset = (b.map Prod.fst).toFinset := by
    ext x
    simp only [List.mem_toFinset]
    rw [← hmGet_isSome_iff, ← hmGet_isSome_iff, h x]
  have hlen : (a.map Prod.fst).length = (b.map Prod.fst).length := by
    rw [← List.toFinset_card_of_nodup ha, ← List.toFinset_card_of_nodup hb, hf]
  simpa using hlen

theorem hmEq_iff {a b : List (String × String)}
    (ha : KeysNodup a) (hb : KeysNodup b) :
    hmEq a b = true ↔ ∀ k, hmGet a k = hmGet b k := by
  constructor
  · intro h k
    rw [hmEq, Bool.and_eq_true, beq_iff_eq, List.all_eq_true] at h
    obtain ⟨hlen, hall⟩ := h
    cases hget : hmGet a k with
    | some v =>
      have hv := hall _ (hmGet_mem hget)
      rw [beq_iff_eq] at hv
      exact hv.symm
    | none =>
      have hsub : (a.map Prod.fst).toFinset ⊆ (b.map Prod.fst).toFinset := by
        intro x hx
        rw [List.mem_toFinset] at hx ⊢
        obtain ⟨⟨k1, v1⟩, hm, rfl⟩ := List.mem_map.mp hx
        have hv := hall _ hm
        rw [beq_iff_eq] at hv
        exact List.mem_map.mpr ⟨(k1, v1), hmGet_mem hv, rfl⟩
      have hfeq : (a.map Prod.fst).toFinset = (b.map Prod.fst).toFinset := by
        apply Finset.eq_of_subset_of_card_le hsub
        rw [List.toFinset_card_of_nodup ha, List.toFinset_card_of_nodup hb]
        simp [hlen]
      have hka : k ∉ a.map Prod.fst := by
        rw [← hmGet_isSome_iff, hget]
        simp
      have hkb : k ∉ b.map Prod.fst := by
        rw [← List.mem_toFinset, ← hfeq, List.mem_toFinset]
        exact hka
      have hnone : hmGet b k = none := by
        cases hg : hmGet b k with
        | none => rfl
        | some w => exact absurd (hmGet_isSome_iff.mp (by rw [hg]; rfl)) hkb
      rw [hnone]
  · intro hpt
    rw [hmEq, Bool.and_eq_true, beq_iff_eq, List.all_eq_true]
    refine ⟨pointwise_length_eq ha hb hpt, ?_⟩
    rintro ⟨k, v⟩ hm
    rw [beq_iff_eq, ← hpt k]
    exact mem_hmGet ha hm

theorem phValsMap_eq_refl (a : PHValsMap) (ha : KeysNodup a.map) :
    PHValsMap.eq a a = true :=
  (hmEq_iff ha ha).2 fun _ => rfl

theorem phValsMap_eq_congr {q1 q2 : PHValsMap}
    (h1 : KeysNodup q1.map) (h2 : KeysNodup q2.map)
    (hpt : ∀ x, hmGet q1.map x = hmGet q2.map x) (k : PHValsMap) :
    PHValsMap.eq k q1 = PHValsMap.eq k q2 := by
  simp only [PHValsMap.eq, hmEq, pointwise_length_eq h1 h2 hpt, hpt]

theorem groupGet_congr {msgs : List (PHValsMap × SingleMessage)} {q1 q2 : PHValsMap}
    (h : ∀ k, PHValsMap.eq k q1 = PHValsMap.eq k q2) :
    groupGet msgs q1 = groupGet msgs q2 := by
  induction msgs with
  | nil => rfl
  | cons e rest ih =>
    obtain ⟨k, m⟩ := e
    simp only [groupGet, h k, ih]

theorem groupGet_append_none {xs : List (PHValsMap × SingleMessage)} {q : PHValsMap}
    (h : groupGet xs q = none) (ys : List (PHValsMap × SingleMessage)) :
    groupGet (xs ++ ys) q = groupGet ys q := by
  induction xs with
  | nil => rfl
  | cons e rest ih =>
    obtain ⟨k, m⟩ := e
    by_cases hk : PHValsMap.eq k q = true
    · simp only [groupGet, if_pos hk] at h
      exact Option.noConfusion h
    · simp only [groupGet, if_neg hk] at h
      rw [List.cons_append]
      simp only [groupGet, if_neg hk]
      exact ih h

/-! The claims. -/

/-- C1: for SelectorSets with identical pair content regardless of insertion
order, `PHValsMap.eq` is true and the `Hash` impl makes identical
contributions to any caller-supplied hasher state (the hash observed through
a hasher is a pure, order-independent function of the pair-set content). -/
theorem phValsMap_perm_eq_and_hash (a b : PHValsMap)
    (hperm : a.map.Perm b.map) (ha : KeysNodup a.map) :
    PHValsMap.eq a b = true ∧
      ∀ state, PHValsMap.hash a state = PHValsMap.hash b state := by
  have hb : KeysNodup b.map := ((hperm.map Prod.fst).nodup_iff).mp ha
  refine ⟨?_, fun state => rfl⟩
  apply (hmEq_iff ha hb).2
  intro k
  cases hget : hmGet a.map k with
  | some v =>
    exact (mem_hmGet hb (hperm.mem_iff.mp (hmGet_mem hget))).symm
  | none =>
    cases hgb : hmGet b.map k with
    | none => rfl
    | some w =>
      have : (k, w) ∈ a.map := hperm.mem_iff.mpr (hmGet_mem hgb)
      rw [mem_hmGet ha this] at hget
      exact Option.noConfusion hget

/-- C1 witness: two concrete SelectorSets holding the same pairs in opposite
insertion orders are equal and hash identically. -/
theorem phValsMap_perm_eq_and_hash_w :
    PHValsMap.eq ⟨[("A", "1"), ("B", "2")]⟩ ⟨[("B", "2"), ("A", "1")]⟩ = true ∧
      PHValsMap.hash ⟨[("A", "1"), ("B", "2")]⟩ [] =
        PHValsMap.hash ⟨[("B", "2"), ("A", "1")]⟩ [] :=
  ⟨(phValsMap_perm_eq_and_hash ⟨[("A", "1"), ("B", "2")]⟩ ⟨[("B", "2"), ("A", "1")]⟩
      (by decide) (by decide)).1,
   (phValsMap_perm_eq_and_hash ⟨[("A", "1"), ("B", "2")]⟩ ⟨[("B", "2"), ("A", "1")]⟩
      (by decide) (by decide)).2 []⟩

/-- C2: two SelectorSets are equal under `PHValsMap.eq` exactly when they
have identical key sets and identical values for every key; string
comparison is case-significant, so COUNT-keyed and count-keyed singletons
are unequal. -/
theorem phValsMap_eq_iff_pointwise (a b : PHValsMap)
    (ha : KeysNodup a.map) (hb : KeysNodup b.map) :
    (PHValsMap.eq a b = true ↔
      ((∀ k, k ∈ a.map.map Prod.fst ↔ k ∈ b.map.map Prod.fst) ∧
        ∀ k, hmGet a.map k = hmGet b.map k)) ∧
      PHValsMap.eq ⟨[("COUNT", "5")]⟩ ⟨[("count", "5")]⟩ = false := by
  refine ⟨?_, by decide⟩
  constructor
  · intro h
    have hpt := (hmEq_iff ha hb).1 h
    refine ⟨fun k => ?_, hpt⟩
    rw [← hmGet_isSome_iff, ← hmGet_isSome_iff, hpt k]
  · rintro ⟨_, hpt⟩
    exact (hmEq_iff ha hb).2 hpt

/-- C2 witness: the characterization applied to the concrete COUNT-keyed
singletons of the repository's unit test. -/
theorem phValsMap_eq_iff_pointwise_w :
    PHValsMap.eq ⟨[("COUNT", "5")]⟩ ⟨[("count", "5")]⟩ = false :=
  (phValsMap_eq_iff_pointwise ⟨[("COUNT", "5")]⟩ ⟨[("count", "5")]⟩
    (by decide) (by decide)).2

/-- C5: the `Hash` impl of `PHValsMap` writes nothing to the caller-supplied
hasher state, so every `PHValsMap` — whatever its contents — contributes
exactly what the empty `PHValsMap` contributes, and all keys of the variants
HashMap collide into one hash value. -/
theorem phValsMap_hash_writes_nothing (a b : PHValsMap) (state : HasherState) :
    PHValsMap.hash a state = state ∧
      PHValsMap.hash a state = PHValsMap.hash b state ∧
      PHValsMap.hash a state = PHValsMap.hash ⟨[]⟩ state :=
  ⟨rfl, rfl, rfl⟩

/-- C10: the displayed form of a Placeholder is exactly its id wrapped in
braces, independent of its type and of any default text; the default text is
never emitted. -/
theorem placeholder_display_id_only (i : String) (t1 t2 : PlaceholderType)
    (d1 d2 : Option String) :
    Placeholder.display ⟨i, t1, d1⟩ = "\x7b" ++ i ++ "\x7d" ∧
      Placeholder.display ⟨i, t1, d1⟩ = Placeholder.display ⟨i, t2, d2⟩ :=
  ⟨rfl, rfl⟩

theorem string_join_cons (s : String) (l : List String) :
    String.join (s :: l) = s ++ String.join l := by
  apply String.ext
  simp

theorem join_map_eq_foldr {α : Type} (f : α → String) (l : List α) :
    String.join (l.map f) = l.foldr (fun x acc => f x ++ acc) "" := by
  induction l with
  | nil => rfl
  | cons x xs ih => rw [List.map_cons, List.foldr_cons, string_join_cons, ih]

/-- C8 counterexample: the displayed text of the one-part pattern
`[TextPart "ab"]` is "[ab]", not the bare concatenation "ab" of its parts'
displayed forms — extra bracket characters are inserted around the parts. -/
theorem messagePattern_display_not_concat :
    MessagePattern.display ⟨[PatternPart.TEXTPART ⟨"ab"⟩]⟩ ≠
      String.join (([PatternPart.TEXTPART ⟨"ab"⟩] : List PatternPart).map
        PatternPart.display) := by
  decide

/-- C8 amended: the displayed text of a pattern is the concatenation, in part
order, of the displayed form of every part — with no separator between
parts — wrapped in one leading "[" and one trailing "]". -/
theorem messagePattern_display_concat (mp : MessagePattern) :
    MessagePattern.display mp =
      "[" ++ mp.parts.foldr (fun p acc => PatternPart.display p ++ acc) "" ++ "]" := by
  rw [MessagePattern.display, join_map_eq_foldr]

/-- C9: TextUnit construction fails with `ShapeMismatch` exactly when the two
sides are not the same shape; in particular pairing a Message with a
MessageGroup fails with `ShapeMismatch` at construction time. -/
theorem textUnit_construct_shape (a b : MessageType) (m : SingleMessage)
    (g : MessageGroup) :
    (TextUnit.construct a b = .error .ShapeMismatch ↔ a.isSingle ≠ b.isSingle) ∧
      TextUnit.construct (.SINGLE m) (.GROUP g) = .error .ShapeMismatch := by
  refine ⟨?_, rfl⟩
  cases a <;> cases b <;> simp [TextUnit.construct, MessageType.isSingle]

theorem insertMsg_dup {g : MessageGroup} {m m0 : SingleMessage}
    (h : groupGet g.messages m.ph_vals = some m0) :
    g.insertMsg m = .error .DuplicateVariant := by
  simp only [MessageGroup.insertMsg, h]

theorem resolveExact_of_get {g : MessageGroup} {q : PHValsMap} {m : SingleMessage}
    (h : groupGet g.messages q = some m) : g.resolveExact q = .ok m := by
  simp only [MessageGroup.resolveExact, h]

/-- C3: after inserting a message, inserting a second message whose selector
key equals the first's fails with `DuplicateVariant`, and the group still
maps that key to the first message only — no silent overwrite. -/
theorem messageGroup_insert_duplicate (g g1 : MessageGroup) (m1 m2 : SingleMessage)
    (h1n : KeysNodup m1.ph_vals.map) (h2n : KeysNodup m2.ph_vals.map)
    (hkey : PHValsMap.eq m2.ph_vals m1.ph_vals = true)
    (hins : g.insertMsg m1 = .ok g1) :
    g1.insertMsg m2 = .error .DuplicateVariant ∧
      groupGet g1.messages m2.ph_vals = some m1 := by
  have hget : groupGet g.messages m1.ph_vals = none := by
    cases hg : groupGet g.messages m1.ph_vals with
    | none => rfl
    | some m0 =>
      simp only [MessageGroup.insertMsg, hg] at hins
      exact Except.noConfusion hins
  simp only [MessageGroup.insertMsg, hget] at hins
  injection hins with h
  subst h
  have hpt : ∀ x, hmGet m2.ph_vals.map x = hmGet m1.ph_vals.map x :=
    (hmEq_iff h2n h1n).1 hkey
  have hcong : ∀ k, PHValsMap.eq k m2.ph_vals = PHValsMap.eq k m1.ph_vals :=
    phValsMap_eq_congr h2n h1n hpt
  have hnone2 : groupGet g.messages m2.ph_vals = none := by
    rw [groupGet_congr hcong, hget]
  have hc : PHValsMap.eq m1.ph_vals m2.ph_vals = true :=
    (hcong m1.ph_vals).trans (phValsMap_eq_refl m1.ph_vals h1n)
  have hfull : groupGet (g.messages ++ [(m1.ph_vals, m1)]) m2.ph_vals = some m1 := by
    rw [groupGet_append_none hnone2]
    simp only [groupGet, if_pos hc]
  exact ⟨insertMsg_dup hfull, hfull⟩

/-- The singular-count variant message of the repository's unit test. -/
def msgOne : SingleMessage :=
  ⟨"msg2", "en",
    ⟨[.PLACEHOLDER ⟨"COUNT", .PLURAL, none⟩, .TEXTPART ⟨" item selected."⟩]⟩,
    ⟨[("COUNT", "ONE")]⟩⟩

/-- A second message carrying the same selector key as `msgOne`. -/
def msgOneDup : SingleMessage :=
  ⟨"msg2b", "en", ⟨[.TEXTPART ⟨"duplicate"⟩]⟩, ⟨[("COUNT", "ONE")]⟩⟩

/-- The catch-all variant message of the repository's unit test. -/
def msgOther : SingleMessage :=
  ⟨"msg3", "en",
    ⟨[.PLACEHOLDER ⟨"COUNT", .PLURAL, none⟩, .TEXTPART ⟨" items selected."⟩]⟩,
    ⟨[("COUNT", "OTHER")]⟩⟩

/-- C3 witness: the duplicate-insertion failure at concrete messages. -/
theorem messageGroup_insert_duplicate_w :
    MessageGroup.insertMsg ⟨"grp", [(⟨[("COUNT", "ONE")]⟩, msgOne)]⟩ msgOneDup =
        .error .DuplicateVariant ∧
      groupGet [(⟨[("COUNT", "ONE")]⟩, msgOne)] msgOneDup.ph_vals = some msgOne :=
  messageGroup_insert_duplicate ⟨"grp", []⟩ ⟨"grp", [(⟨[("COUNT", "ONE")]⟩, msgOne)]⟩
    msgOne msgOneDup (by decide) (by decide) (by decide) rfl

/-- C4: after inserting a message, resolving the group with any SelectorSet
equal to the message's selector key returns exactly that message. -/
theorem messageGroup_insert_resolve (g g1 : MessageGroup) (m : SingleMessage)
    (q : PHValsMap)
    (hmn : KeysNodup m.ph_vals.map) (hqn : KeysNodup q.map)
    (hq : PHValsMap.eq q m.ph_vals = true)
    (hins : g.insertMsg m = .ok g1) :
    g1.resolveExact q = .ok m := by
  have hget : groupGet g.messages m.ph_vals = none := by
    cases hg : groupGet g.messages m.ph_vals with
    | none => rfl
    | some m0 =>
      simp only [MessageGroup.insertMsg, hg] at hins
      exact Except.noConfusion hins
  simp only [MessageGroup.insertMsg, hget] at hins
  injection hins with h
  subst h
  have hpt : ∀ x, hmGet q.map x = hmGet m.ph_vals.map x := (hmEq_iff hqn hmn).1 hq
  have hcong : ∀ k, PHValsMap.eq k q = PHValsMap.eq k m.ph_vals :=
    phValsMap_eq_congr hqn hmn hpt
  have hnone : groupGet g.messages q = none := by
    rw [groupGet_congr hcong, hget]
  have hc : PHValsMap.eq m.ph_vals q = true :=
    (hcong m.ph_vals).trans (phValsMap_eq_refl m.ph_vals hmn)
  have hfull : groupGet (g.messages ++ [(m.ph_vals, m)]) q = some m := by
    rw [groupGet_append_none hnone]
    simp only [groupGet, if_pos hc]
  exact resolveExact_of_get hfull

/-- C4 witness: the insert-then-resolve round-trip at a concrete message. -/
theorem messageGroup_insert_resolve_w :
    MessageGroup.resolveExact ⟨"grp2", [(⟨[("COUNT", "ONE")]⟩, msgOne)]⟩
        ⟨[("COUNT", "ONE")]⟩ = .ok msgOne :=
  messageGroup_insert_resolve ⟨"grp2", []⟩ ⟨"grp2", [(⟨[("COUNT", "ONE")]⟩, msgOne)]⟩
    msgOne ⟨[("COUNT", "ONE")]⟩ (by decide) (by decide) (by decide) rfl

/-- C6: rendering processes parts in order — a TextPart contributes its
literal text; a Placeholder contributes the supplied interpolation value for
its id if present, else its default text if present, else rendering fails
with `MissingValue(id)` instead of substituting an empty string; a value
supplied for a no-default Placeholder is substituted verbatim. -/
theorem render_parts_semantics (vals : List (String × String)) (t : TextPart)
    (p : Placeholder) (rest : List PatternPart) (v d : String) :
    (renderParts vals (.TEXTPART t :: rest) =
        (renderParts vals rest).map fun s => t.text ++ s) ∧
      (hmGet vals p.id = some v →
        renderParts vals (.PLACEHOLDER p :: rest) =
          (renderParts vals rest).map fun s => v ++ s) ∧
      (hmGet vals p.id = none → p.default_text_val = some d →
        renderParts vals (.PLACEHOLDER p :: rest) =
          (renderParts vals rest).map fun s => d ++ s) ∧
      (hmGet vals p.id = none → p.default_text_val = none →
        renderParts vals (.PLACEHOLDER p :: rest) = .error (.MissingValue p.id)) ∧
      (hmGet vals p.id = some v → p.default_text_val = none →
        renderParts vals [.PLACEHOLDER p] = .ok v) := by
  refine ⟨rfl, fun h1 => ?_, fun h1 h2 => ?_, fun h1 h2 => ?_, fun h1 h2 => ?_⟩
  · simp only [renderParts, h1]
  · simp only [renderParts, h1, h2]
  · simp only [renderParts, h1, h2]
  · simp only [renderParts, h1]
    simp [Except.map]

theorem resolveChain_none_iff (msgs : List (PHValsMap × SingleMessage))
    (cs : List (List (String × String))) :
    resolveChain msgs cs = none ↔
      (cs.all fun c => (groupGet msgs ⟨c⟩).isNone) = true := by
  induction cs with
  | nil => simp [resolveChain]
  | cons c rest ih =>
    cases hg : groupGet msgs ⟨c⟩ with
    | some m => simp [resolveChain, hg]
    | none => simp [resolveChain, hg, ih]

theorem fallbackChain_nil_mem (q : List (String × String)) :
    [] ∈ fallbackChain q := by
  induction q with
  | nil => simp [fallbackChain]
  | cons kv rest ih =>
    obtain ⟨k, v⟩ := kv
    simp only [fallbackChain, List.mem_cons]
    exact Or.inr (Or.inr ih)

/-- C7: with the fallback policy enabled, resolution walks the documented
candidate chain — the exact query, then per least-specific selector the
OTHER catch-all and then the dropped selector, ending at the empty
SelectorSet — and fails with `NoVariantFound` exactly when no candidate has
a registered variant (so failure implies even the empty SelectorSet has
none); concretely, resolving COUNT=FEW against a group holding only the ONE
and OTHER variants fails with `NoVariantFound` without the fallback policy
and returns the OTHER variant with it. -/
theorem resolve_fallback_policy (g : MessageGroup) (q : PHValsMap)
    (mOne mOther : SingleMessage) (gid : String) :
    (g.resolveFallback q = .error .NoVariantFound ↔
      ((fallbackChain q.map).all fun c => (groupGet g.messages ⟨c⟩).isNone) = true) ∧
      (g.resolveFallback q = .error .NoVariantFound →
        groupGet g.messages ⟨[]⟩ = none) ∧
      (MessageGroup.resolveExact
          ⟨gid, [(⟨[("COUNT", "ONE")]⟩, mOne), (⟨[("COUNT", "OTHER")]⟩, mOther)]⟩
          ⟨[("COUNT", "FEW")]⟩ = .error .NoVariantFound) ∧
      (MessageGroup.resolveFallback
          ⟨gid, [(⟨[("COUNT", "ONE")]⟩, mOne), (⟨[("COUNT", "OTHER")]⟩, mOther)]⟩
          ⟨[("COUNT", "FEW")]⟩ = .ok mOther) := by
  have hiff : g.resolveFallback q = .error .NoVariantFound ↔
      resolveChain g.messages (fallbackChain q.map) = none := by
    rw [MessageGroup.resolveFallback]
    cases resolveChain g.messages (fallbackChain q.map) with
    | some m => simp
    | none => simp
  refine ⟨hiff.trans (resolveChain_none_iff _ _), ?_, rfl, rfl⟩
  intro h
  have hall := (hiff.trans (resolveChain_none_iff _ _)).1 h
  rw [List.all_eq_true] at hall
  have hnil := hall _ (fallbackChain_nil_mem q.map)
  rwa [Option.isNone_iff_eq_none] at hnil
